import Mathlib

/-!
Verification of the SPSC ring buffer library (squ1dd13/ringbuf) against its
natural-language specification.

The repository contains two generations of the ring buffer core:

* `src/ring_buffer.rs` — the older draft: `RingBuffer` with atomic `head`/`tail`
  indices, `modulus = 2 * capacity`, `occupied_slices` / `vacant_slices`,
  `move_head` / `move_tail` and a `Drop` impl.  It is embedded below as
  `Ringbuf.RingBuffer`, faithfully including the fact that the private method
  `tail()` loads the `head` atomic (`self.head.load(Ordering::Acquire)` on line
  133 of the source).

* `src/rbs/shared.rs` + `src/consumer.rs` — the newer draft: `SharedRb` with
  `read`/`write` indices and the `Consumer` trait operations (`try_pop`,
  `pop_iter`, `skip`, `clear`).  It is embedded as `Ringbuf.SharedRb`.  The
  helper functions `modulus` and `ranges` (from `rbs/utils.rs`), the `RawRb`
  trait defaults (from `raw.rs`) and the producer push path (from
  `producer/local.rs`) are not among the sources, so they are modelled from the
  specification; each such definition is marked `Modelled from the spec:`.

Storage slots of element type `T` are embedded as `Option α`: `some x` is an
initialized slot holding `x`, `none` is an uninitialized (`MaybeUninit`) slot.
`assume_init_read` on an uninitialized slot is undefined behaviour in the
source; it is modelled as reading `default`.  A Rust `panic!` / failed
`assert!` is modelled by returning `none` from an `Option`-valued function.
-/

namespace Ringbuf

/-! ### Older draft: `RingBuffer` from `src/ring_buffer.rs` -/

/-- `RingBuffer<T, C>` from `src/ring_buffer.rs`: a `Storage` of
`MaybeUninit<T>` slots (embedded as `List (Option α)`) together with the
`head` and `tail` atomic indices. -/
structure RingBuffer (α : Type) where
  data : List (Option α)
  head : Nat
  tail : Nat
  deriving DecidableEq

namespace RingBuffer

/-- `RingBuffer::from_raw_parts(container, head, tail)` (lines 139-145).
It performs no check and no allocation beyond storing the fields. -/
def from_raw_parts (container : List (Option α)) (head tail : Nat) : RingBuffer α :=
  ⟨container, head, tail⟩

/-- `RingBufferBase::capacity` = `self.data.len()` (lines 159-161). -/
def capacity (rb : RingBuffer α) : Nat := rb.data.length

/-- The private method `fn head(&self)` (lines 129-131): loads the `head` atomic. -/
def headLoad (rb : RingBuffer α) : Nat := rb.head

/-- The private method `fn tail(&self)` (lines 132-134).  The source reads
`self.head.load(Ordering::Acquire)` — it loads the `head` atomic, not the
`tail` one.  The embedding reproduces the source as written. -/
def tailLoad (rb : RingBuffer α) : Nat := rb.head

/-- `fn modulus(&self) = 2 * self.capacity()` (lines 135-137). -/
def modulus (rb : RingBuffer α) : Nat := 2 * rb.capacity

/-- `occupied_len = (modulus + tail() - head()) % modulus` (lines 163-165). -/
def occupied_len (rb : RingBuffer α) : Nat :=
  (rb.modulus + rb.tailLoad - rb.headLoad) % rb.modulus

/-- `vacant_len = (modulus + head() - tail() - capacity) % modulus` (lines 166-168). -/
def vacant_len (rb : RingBuffer α) : Nat :=
  (rb.modulus + rb.headLoad - rb.tailLoad - rb.capacity) % rb.modulus

/-- `RingBufferBase::is_empty` default: `occupied_len() == 0` (lines 78-80). -/
def is_empty (rb : RingBuffer α) : Bool := rb.occupied_len == 0

/-- `RingBufferBase::is_full` default: `vacant_len() == 0` (lines 85-87). -/
def is_full (rb : RingBuffer α) : Bool := rb.vacant_len == 0

/-- `move_head(count)` (lines 172-176): asserts `count <= occupied_len()`
(a failed assert, i.e. a panic, is `none`), then stores
`(head() + count) % modulus` into `head`. -/
def move_head (rb : RingBuffer α) (count : Nat) : Option (RingBuffer α) :=
  if count ≤ rb.occupied_len then
    some { rb with head := (rb.headLoad + count) % rb.modulus }
  else
    none

/-- `move_tail(count)` (lines 198-202): asserts `count <= vacant_len()`,
then stores `(tail() + count) % modulus` into `tail`.  Note that `tail()`
loads the `head` atomic (see `tailLoad`). -/
def move_tail (rb : RingBuffer α) (count : Nat) : Option (RingBuffer α) :=
  if count ≤ rb.vacant_len then
    some { rb with tail := (rb.tailLoad + count) % rb.modulus }
  else
    none

/-- `RingBuffer::new(capacity)` (lines 232-238): a vector of `capacity`
uninitialized slots, indices from `from_raw_parts(data, 0, 0)`.  The source
contains no capacity check and no panic path. -/
def new (cap : Nat) : RingBuffer α :=
  from_raw_parts (List.replicate cap none) 0 0

/-- The pair of index ranges (as `(start, end)` pairs of storage offsets)
computed by `occupied_slices` (lines 178-194): `match head.cmp(&tail)` with
`Less → ((head % len)..(tail % len), 0..0)`,
`Greater → ((head % len)..len, 0..(tail % len))`, `Equal → (0..0, 0..0)`,
where `head = self.head()` and `tail = self.tail()`. -/
def occupied_ranges (rb : RingBuffer α) : (Nat × Nat) × (Nat × Nat) :=
  let head := rb.headLoad
  let tail := rb.tailLoad
  let len := rb.capacity
  if head < tail then ((head % len, tail % len), (0, 0))
  else if tail < head then ((head % len, len), (0, tail % len))
  else ((0, 0), (0, 0))

/-- The ranges computed by `vacant_slices` (lines 204-220):
`Less → ((tail % len)..len, 0..(head % len))`,
`Greater → ((tail % len)..(head % len), 0..0)`, `Equal → (0..0, 0..0)`. -/
def vacant_ranges (rb : RingBuffer α) : (Nat × Nat) × (Nat × Nat) :=
  let head := rb.headLoad
  let tail := rb.tailLoad
  let len := rb.capacity
  if head < tail then ((tail % len, len), (0, head % len))
  else if tail < head then ((tail % len, head % len), (0, 0))
  else ((0, 0), (0, 0))

end RingBuffer

/-- The slots denoted by a Rust slice built from offset range `(start, end)`
into `data` (via `slice::from_raw_parts_mut(ptr.add(start), range.len())`;
`Range::len` is `end - start`, and `0` when `end < start`). -/
def sliceOf (data : List (Option α)) (r : Nat × Nat) : List (Option α) :=
  (List.range (r.2 - r.1)).map fun j => data.getD (r.1 + j) none

namespace RingBuffer

/-- The two occupied slices of the older draft, as slot lists. -/
def occupied_slices (rb : RingBuffer α) : List (Option α) × List (Option α) :=
  (sliceOf rb.data rb.occupied_ranges.1, sliceOf rb.data rb.occupied_ranges.2)

/-- The slots visited by `impl Drop for RingBuffer` (lines 223-230): it chains
the two `occupied_slices` and calls `ptr::drop_in_place` on each element. -/
def droppedSlots (rb : RingBuffer α) : List (Option α) :=
  rb.occupied_slices.1 ++ rb.occupied_slices.2

/-- Number of initialized (live) elements held in storage. -/
def liveCount (rb : RingBuffer α) : Nat :=
  (rb.data.filter Option.isSome).length

end RingBuffer

/-! Concrete `RingBuffer` states used to exhibit the divergences. -/

/-- Capacity-8 buffer after the producer has published 8 items:
`head = 0`, `tail = 8` (reached by `move_tail(8)` from the fresh buffer). -/
def rb8 : RingBuffer Nat := RingBuffer.from_raw_parts (List.replicate 8 none) 0 8

/-- Capacity-4 buffer holding one element: slot 0 initialized,
`head = 0`, `tail = 1`. -/
def rb5 : RingBuffer Nat := RingBuffer.from_raw_parts [some 7, none, none, none] 0 1

/-- Capacity-4 buffer holding one element (for the two-slice-view claim). -/
def rb2 : RingBuffer Nat := RingBuffer.from_raw_parts [some 5, none, none, none] 0 1

/-- Capacity-4 buffer with `head = 0`, `tail = 1`, no slot written yet
(the state produced by `move_tail(1)` from the fresh buffer). -/
def rb9a : RingBuffer Nat := RingBuffer.from_raw_parts (List.replicate 4 none) 0 1

/-! ### Newer draft: `SharedRb` from `src/rbs/shared.rs` and the `Consumer`
operations from `src/consumer.rs` -/

/-- `SharedRb<S>` from `src/rbs/shared.rs`: storage plus the `read` and
`write` atomic indices. -/
structure SharedRb (α : Type) where
  data : List (Option α)
  read : Nat
  write : Nat
  deriving DecidableEq

namespace SharedRb

/-- `Observer::capacity` = `self.storage.len()` (shared.rs lines 63-66). -/
def capacity (rb : SharedRb α) : Nat := rb.data.length

/-- Modelled from the spec: `modulus` from `rbs/utils.rs` is not among the
sources; the spec defines the modulus as `2·capacity` ("**Modulus** —
`2·capacity`, the range of valid index values"). -/
def modulus (rb : SharedRb α) : Nat := 2 * rb.capacity

/-- `occupied_len = (modulus + write - read) % modulus` (shared.rs lines 68-71). -/
def occupied_len (rb : SharedRb α) : Nat :=
  (rb.modulus + rb.write - rb.read) % rb.modulus

/-- `vacant_len = (capacity + read - write) % modulus` (shared.rs lines 72-75). -/
def vacant_len (rb : SharedRb α) : Nat :=
  (rb.capacity + rb.read - rb.write) % rb.modulus

/-- `is_empty`: `read == write` (shared.rs lines 77-80). -/
def is_empty (rb : SharedRb α) : Bool := rb.read == rb.write

/-- Modelled from the spec: the `is_full` default lives in the missing traits
file; the spec defines `is_full = (occupied_len == capacity)`. -/
def is_full (rb : SharedRb α) : Bool := rb.occupied_len == rb.capacity

/-- `advance_read_index(count)`: stores `(read + count) % modulus` into `read`
(shared.rs lines 112-116).  The spec's `advance_read_by(n)` ("adds `n` to
`read_end` modulo `M`") is the same operation, so this also stands for the
missing `RawRb::move_read_end`. -/
def advance_read_index (rb : SharedRb α) (count : Nat) : SharedRb α :=
  { rb with read := (rb.read + count) % rb.modulus }

/-- `advance_write_index(count)`: stores `(write + count) % modulus` into
`write` (shared.rs lines 84-88). -/
def advance_write_index (rb : SharedRb α) (count : Nat) : SharedRb α :=
  { rb with write := (rb.write + count) % rb.modulus }

end SharedRb

/-- Modelled from the spec: `ranges` from `rbs/utils.rs` is not among the
sources.  The spec: "Given a range `[a, b)` ... the projection onto storage
offsets is either one contiguous slice `[a mod capacity, b mod capacity)` or
two slices `[a mod capacity, capacity)` and `[0, b mod capacity)`, depending
on wrap"; the range wraps past the storage end exactly when `a` and `b` lie
in different laps of the storage, i.e. `a / capacity ≠ b / capacity`. -/
def ranges (cap a b : Nat) : (Nat × Nat) × (Nat × Nat) :=
  if a / cap = b / cap then ((a % cap, b % cap), (0, 0))
  else ((a % cap, cap), (0, b % cap))

namespace SharedRb

/-- `unsafe_slices(start, end)` (shared.rs lines 144-147): splits `start..end`
with `ranges(capacity, start, end)` and returns the two storage slices. -/
def unsafe_slices (rb : SharedRb α) (start e : Nat) :
    List (Option α) × List (Option α) :=
  let r := ranges rb.capacity start e
  (sliceOf rb.data r.1, sliceOf rb.data r.2)

/-- `Consumer::occupied_slices` for `SharedRb`: `unsafe_slices(read, write)`
(shared.rs lines 118-122). -/
def occupied_slices (rb : SharedRb α) : List (Option α) × List (Option α) :=
  rb.unsafe_slices rb.read rb.write

/-- `Producer::vacant_slices` for `SharedRb`:
`unsafe_slices(write, read + capacity)` (shared.rs lines 90-99). -/
def vacant_slices (rb : SharedRb α) : List (Option α) × List (Option α) :=
  rb.unsafe_slices rb.write (rb.read + rb.capacity)

/-- `Consumer::try_pop` (consumer.rs lines 86-94): if the buffer is not empty,
read element 0 of the first occupied slice (`get_unchecked(0).assume_init_read()`,
modelled as `default` for an uninitialized slot), advance `read` by 1 and
return the element; otherwise return `None` leaving the state untouched. -/
def try_pop [Inhabited α] (rb : SharedRb α) : SharedRb α × Option α :=
  if !rb.is_empty then
    let elem := (rb.occupied_slices.1.getD 0 none).getD default
    (rb.advance_read_index 1, some elem)
  else
    (rb, none)

/-- Modelled from the spec: the producer push path (`producer/local.rs`) is
not among the sources.  Spec: "`try_push(item)` ... consumes item on success
... returns the item back unchanged when full"; on success the item is written
to the first vacant slot (storage offset `write mod capacity`) and
`write_end` is advanced by 1 modulo the modulus. -/
def try_push (rb : SharedRb α) (x : α) : SharedRb α × Option α :=
  if rb.is_full then
    (rb, some x)
  else
    ({ rb with
        data := rb.data.set (rb.write % rb.capacity) (some x),
        write := (rb.write + 1) % rb.modulus }, none)

/-- Modelled from the spec: `RawRb::skip` (`raw.rs`) is not among the sources.
Spec: "`skip(n)` — number actually dropped = `min(n, occupied_len)`; elements
are destroyed with their proper destructor"; "`clear()` — number dropped =
`occupied_len` at the moment of the call" (`skip(None)` clears).  The read
index is advanced past the dropped elements. -/
def rawSkip (rb : SharedRb α) (count : Option Nat) : Nat × SharedRb α :=
  let n := min (count.getD rb.occupied_len) rb.occupied_len
  (n, rb.advance_read_index n)

/-- `Consumer::skip(count)` (consumer.rs lines 146-150): clamps `count` to
`occupied_len`, calls the raw `skip(Some(count))` (whose result the source
asserts equal to `count`; the assert holds by `rawSkip`) and returns the
clamped count. -/
def skip (rb : SharedRb α) (count : Nat) : Nat × SharedRb α :=
  let c := min count rb.occupied_len
  (c, (rb.rawSkip (some c)).2)

/-- `Consumer::clear` (consumer.rs lines 155-157): `self.as_raw().skip(None)`. -/
def clear (rb : SharedRb α) : Nat × SharedRb α :=
  rb.rawSkip none

/-- Modelled from the spec: the constructor surface (`rb_impl_init!`) is not
among the sources; the spec: "builds a buffer with `capacity` uninitialized
slots", both indices zero. -/
def new (cap : Nat) : SharedRb α :=
  ⟨List.replicate cap none, 0, 0⟩

/-- The slot holding index `i` of the index space: storage offset
`i mod capacity`. -/
def slot (rb : SharedRb α) (i : Nat) : Option α :=
  rb.data.getD (i % rb.capacity) none

/-- The occupied region as the ordered list of slots of indices
`read, read+1, ..., read+occupied_len-1` (oldest first). -/
def queueOpt (rb : SharedRb α) : List (Option α) :=
  (List.range rb.occupied_len).map fun i => rb.slot (rb.read + i)

/-- The index-discipline invariant of the spec (§3): positive capacity, both
indices in `[0, 2·capacity)`, occupied length at most `capacity`. -/
def Valid (rb : SharedRb α) : Prop :=
  0 < rb.capacity ∧ rb.read < rb.modulus ∧ rb.write < rb.modulus ∧
    rb.occupied_len ≤ rb.capacity

instance (rb : SharedRb α) : Decidable rb.Valid := by
  unfold Valid; infer_instance

end SharedRb

/-- `PopIter` (consumer.rs lines 161-176): holds the two occupied slices and
the total length at creation. -/
structure PopIter (α : Type) where
  first : List (Option α)
  second : List (Option α)
  initial_len : Nat
  deriving DecidableEq

namespace PopIter

/-- `PopIter::new` (consumer.rs lines 167-176): captures `occupied_slices()`
and records `initial_len = slices.0.len() + slices.1.len()`. -/
def new (rb : SharedRb α) : PopIter α :=
  let s := rb.occupied_slices
  ⟨s.1, s.2, s.1.length + s.2.length⟩

/-- `ExactSizeIterator::len` (consumer.rs lines 201-205). -/
def len (it : PopIter α) : Nat := it.first.length + it.second.length

/-- `Iterator::next` (consumer.rs lines 178-194): if the first slice is empty
return `None`; otherwise read its element 0, and either swap in the second
slice (when the first had exactly one element) or drop the first element. -/
def next [Inhabited α] (it : PopIter α) : Option α × PopIter α :=
  match it.first with
  | [] => (none, it)
  | a :: rest =>
    (some (a.getD default),
      if rest.isEmpty then { it with first := it.second, second := [] }
      else { it with first := rest })

/-- Take `k` steps of the iterator, collecting the yielded items. -/
def nextk [Inhabited α] : Nat → PopIter α → List α × PopIter α
  | 0, it => ([], it)
  | k + 1, it =>
    match it.next with
    | (none, it₁) => ([], it₁)
    | (some x, it₁) => (x :: (nextk k it₁).1, (nextk k it₁).2)

/-- `impl Drop for PopIter` (consumer.rs lines 207-211):
`move_read_end(initial_len - len())` on the underlying buffer. -/
def dropAdvance (rb : SharedRb α) (it : PopIter α) : SharedRb α :=
  rb.advance_read_index (it.initial_len - it.len)

end PopIter

/-! Interleaved operation sequences, for the FIFO claim. -/

/-- A producer/consumer operation. -/
inductive Op (α : Type) where
  | push (x : α)
  | pop

/-- One operation applied to (buffer, pushed-so-far, popped-so-far):
`push` uses `try_push` and records the item only when it was accepted;
`pop` uses `try_pop` and records a returned item. -/
def stepOp [Inhabited α] (s : SharedRb α × List α × List α) (op : Op α) :
    SharedRb α × List α × List α :=
  match op with
  | .push x =>
    let r := s.1.try_push x
    match r.2 with
    | none => (r.1, s.2.1 ++ [x], s.2.2)
    | some _ => (r.1, s.2.1, s.2.2)
  | .pop =>
    let r := s.1.try_pop
    match r.2 with
    | some y => (r.1, s.2.1, s.2.2 ++ [y])
    | none => (r.1, s.2.1, s.2.2)

/-- Run a sequence of operations. -/
def runOps [Inhabited α] (s : SharedRb α × List α × List α) (ops : List (Op α)) :
    SharedRb α × List α × List α :=
  ops.foldl stepOp s

/-- The FIFO invariant tying a run to the buffer state: the state is valid,
its occupied region holds some list `q` of initialized items, and the items
pushed so far are the items popped so far followed by `q`. -/
def Inv (s : SharedRb α × List α × List α) : Prop :=
  s.1.Valid ∧ ∃ q : List α, s.1.queueOpt = q.map some ∧ s.2.1 = s.2.2 ++ q

/-! Concrete `SharedRb` states used by the witnesses. -/

/-- A full capacity-1 buffer. -/
def fullRb : SharedRb Nat := ⟨[some 42], 0, 1⟩

/-- An empty capacity-1 buffer. -/
def emptyRb : SharedRb Nat := ⟨[none], 0, 0⟩

/-- A capacity-3 buffer holding `[10, 20]`. -/
def rb6w : SharedRb Nat := ⟨[some 10, some 20, none], 0, 2⟩

/-- A capacity-3 buffer holding `[1, 2]`. -/
def rb7w : SharedRb Nat := ⟨[some 1, some 2, none], 0, 2⟩

/-- A capacity-2 buffer holding `[3]`. -/
def rb10w : SharedRb Nat := ⟨[some 3, none], 0, 1⟩

end Ringbuf

namespace Ringbuf

/-! ### Claims decided by `src/ring_buffer.rs` (C1, C2, C5, C8, C9) -/

/-- C1: the claim states `occupied_len = (write_end − read_end + M) mod M`,
and that after pushing `C = 8` items `is_full` is true and `is_empty` false.
The code violates this: `tail()` loads the `head` atomic, so in the state
reached by `move_tail(8)` from a fresh capacity-8 buffer (`head = 0`,
`tail = 8`) the code computes `occupied_len = 0` although
`(tail − head + M) mod M = 8`; `is_full` is `false` and `is_empty` is `true`. -/
theorem c1_occupied_len_bug :
    (RingBuffer.new (α := Nat) 8).move_tail 8 = some rb8 ∧
    rb8.head = 0 ∧ rb8.tail = 8 ∧
    (rb8.modulus + rb8.tail - rb8.head) % rb8.modulus = 8 ∧
    rb8.occupied_len = 0 ∧
    rb8.is_full = false ∧
    rb8.is_empty = true := by
  decide

/-- C2: the claim states that the occupied view of `[read_end, write_end)` and
the vacant view of `[write_end, read_end + capacity)` cover exactly those
ranges (one or two contiguous slices).  The code violates this: because
`tail()` loads the `head` atomic, `occupied_slices` and `vacant_slices`
always take the `Equal` branch.  In the valid capacity-4 state `head = 0`,
`tail = 1` with slot 0 initialized, the occupied range `[0, 1)` is non-empty
and the vacant range `[1, 4)` has three slots, yet both views are empty. -/
theorem c2_slices_bug :
    rb2.head = 0 ∧ rb2.tail = 1 ∧ rb2.capacity = 4 ∧
    (rb2.modulus + rb2.tail - rb2.head) % rb2.modulus = 1 ∧
    rb2.occupied_ranges = ((0, 0), (0, 0)) ∧
    rb2.vacant_ranges = ((0, 0), (0, 0)) ∧
    rb2.occupied_slices = ([], []) := by
  decide

/-- C5: the claim states that dropping the buffer destroys each still-occupied
element exactly once, leaving zero live elements.  The code violates this: in
the valid capacity-4 state `head = 0`, `tail = 1` with one live element, the
`Drop` impl iterates `occupied_slices` — which is empty because `tail()`
loads the `head` atomic — so it runs zero destructors and the element leaks. -/
theorem c5_drop_bug :
    rb5.liveCount = 1 ∧
    rb5.head = 0 ∧ rb5.tail = 1 ∧
    rb5.droppedSlots = [] := by
  decide

/-- C9: the claim states that every advance of an index adds the count modulo
`2·capacity`.  The code violates this for the write index: `move_tail` stores
`(tail() + count) % modulus` where `tail()` loads the `head` atomic.  From a
fresh capacity-4 buffer, `move_tail(1)` twice leaves `tail = 1` instead of 2
(the second call recomputes from `head = 0`), and `move_head(1)` afterwards
panics (`none`) because `occupied_len` misreports 0. -/
theorem c9_advance_bug :
    (RingBuffer.new (α := Nat) 4).move_tail 1 = some rb9a ∧
    rb9a.move_tail 1 = some rb9a ∧
    rb9a.tail = 1 ∧
    rb9a.move_head 1 = none := by
  decide

/-- C8 counterexample: the claim states `new(capacity)` panics when
`capacity == 0`.  `RingBuffer::new(0)` does not panic: it returns a buffer
with empty storage and both indices zero. -/
theorem c8_new_zero_no_panic :
    RingBuffer.new (α := Nat) 0 = RingBuffer.from_raw_parts [] 0 0 ∧
    (RingBuffer.new (α := Nat) 0).capacity = 0 ∧
    (RingBuffer.new (α := Nat) 0).head = 0 ∧
    (RingBuffer.new (α := Nat) 0).tail = 0 := by
  decide

/-- C8 (amended): `new(capacity)` builds a buffer with exactly `capacity`
uninitialized slots and both indices zero, for every capacity — including
`capacity = 0`, for which no check is performed and no panic occurs. -/
theorem c8_new_builds_buffer (α : Type) (cap : Nat) :
    (RingBuffer.new (α := α) cap).data = List.replicate cap none ∧
    (RingBuffer.new (α := α) cap).capacity = cap ∧
    (RingBuffer.new (α := α) cap).head = 0 ∧
    (RingBuffer.new (α := α) cap).tail = 0 := by
  refine ⟨rfl, ?_, rfl, rfl⟩
  simp [RingBuffer.new, RingBuffer.from_raw_parts, RingBuffer.capacity]

end Ringbuf

namespace Ringbuf

/-! ### Arithmetic helpers for the doubled-modulus index discipline -/

/-- Reduction of a value below twice the modulus. -/
theorem mod_cases2 {M x : Nat} (hx : x < 2 * M) :
    x % M = if x < M then x else x - M := by
  rcases Nat.lt_or_ge x M with h | h
  · rw [if_pos h, Nat.mod_eq_of_lt h]
  · rw [if_neg (Nat.not_lt.mpr h), Nat.mod_eq_sub_mod h, Nat.mod_eq_of_lt (by omega)]

/-- Disjunction form of `mod_cases2`, for `omega`. -/
theorem mod_cases2' {M x : Nat} (hx : x < 2 * M) :
    (x < M ∧ x % M = x) ∨ (M ≤ x ∧ x % M = x - M) := by
  rcases Nat.lt_or_ge x M with h | h
  · exact Or.inl ⟨h, by rw [mod_cases2 hx, if_pos h]⟩
  · exact Or.inr ⟨h, by rw [mod_cases2 hx, if_neg (Nat.not_lt.mpr h)]⟩

/-- Division of a value below twice the divisor. -/
theorem div_cases2 {C x : Nat} (hx : x < 2 * C) :
    x / C = if x < C then 0 else 1 := by
  rcases Nat.lt_or_ge x C with h | h
  · rw [if_pos h, Nat.div_eq_of_lt h]
  · have h0 : 0 < C := by omega
    rw [if_neg (Nat.not_lt.mpr h), Nat.div_eq_sub_div h0 h,
      Nat.div_eq_of_lt (by omega)]

/-- The occupied-length formula `(M + w - r) % M`, characterized. -/
theorem occ_char {M r w : Nat} (hr : r < M) (hw : w < M) :
    (M + w - r) % M = if r ≤ w then w - r else M + w - r := by
  rcases le_or_lt r w with h | h
  · have h1 : M + w - r = M + (w - r) := by omega
    rw [if_pos h, h1, Nat.add_mod_left, Nat.mod_eq_of_lt (by omega)]
  · rw [if_neg (Nat.not_le.mpr h), Nat.mod_eq_of_lt (by omega)]

/-- Disjunction form of `occ_char`, for `omega`. -/
theorem occ_char' {M r w : Nat} (hr : r < M) (hw : w < M) :
    (r ≤ w ∧ (M + w - r) % M = w - r) ∨
    (w < r ∧ (M + w - r) % M = M + w - r) := by
  rcases le_or_lt r w with h | h
  · exact Or.inl ⟨h, by rw [occ_char hr hw, if_pos h]⟩
  · exact Or.inr ⟨h, by rw [occ_char hr hw, if_neg (Nat.not_le.mpr h)]⟩

/-- Subtracting the doubled modulus does not change the residue mod `C`. -/
theorem mod_sub_two_mul {C x : Nat} (h : 2 * C ≤ x) : (x - 2 * C) % C = x % C := by
  have h1 : x = (x - 2 * C) + C * 2 := by omega
  conv_rhs => rw [h1]
  rw [Nat.add_mul_mod_self_left]

/-! ### List helpers -/

/-- Congruence for maps over `List.range`. -/
theorem map_range_congr {f g : Nat → β} {n m : Nat} (hnm : n = m)
    (h : ∀ j, j < m → f j = g j) : (List.range n).map f = (List.range m).map g := by
  subst hnm
  exact List.map_congr_left fun a ha => h a (List.mem_range.mp ha)

/-- Splitting a map over `List.range (p + q)`. -/
theorem map_range_append (f : Nat → β) (p q : Nat) :
    (List.range (p + q)).map f
      = (List.range p).map f ++ (List.range q).map fun j => f (p + j) := by
  rw [List.range_add, List.map_append, List.map_map]
  rfl

/-- Element 0 of a map over a non-empty `List.range`. -/
theorem map_range_getD (f : Nat → β) (L : Nat) (d : β) (hL : 0 < L) :
    ((List.range L).map f).getD 0 d = f 0 := by
  rw [List.getD_eq_getElem?_getD, List.getElem?_map, List.getElem?_range hL]
  rfl

/-- Length of a slice. -/
theorem sliceOf_length (data : List (Option α)) (r : Nat × Nat) :
    (sliceOf data r).length = r.2 - r.1 := by
  simp [sliceOf]

end Ringbuf

namespace Ringbuf

/-- Shape of the two ranges produced by `ranges C a b` for a range `[a, b)` of
the index space (indices below `2·C`, length at most `C`): the first starts at
`a mod C`, the second at `0`, and their lengths split the range length at the
storage boundary. -/
theorem ranges_spec (C a b : Nat) (hC : 0 < C) (ha : a < 2*C) (hb : b < 2*C)
    (hab : (2*C + b - a) % (2*C) ≤ C) :
    (ranges C a b).1.1 = a % C ∧ (ranges C a b).2.1 = 0 ∧
    (ranges C a b).1.2 - (ranges C a b).1.1
      = min ((2*C + b - a) % (2*C)) (C - a % C) ∧
    (ranges C a b).2.2 - (ranges C a b).2.1
      = (2*C + b - a) % (2*C) - (C - a % C) := by
  rcases lt_or_ge a C with h1 | h1 <;> rcases lt_or_ge b C with h2 | h2
  · -- a < C, b < C : same lap
    have hr : ranges C a b = ((a, b), (0, 0)) := by
      simp [ranges, div_cases2 ha, div_cases2 hb, h1, h2,
        Nat.mod_eq_of_lt h1, Nat.mod_eq_of_lt h2]
    rcases occ_char' (M := 2*C) ha hb with ⟨hle, he⟩ | ⟨hlt, he⟩
    · rw [hr, he, Nat.mod_eq_of_lt h1]
      dsimp only
      refine ⟨rfl, rfl, ?_, ?_⟩ <;> omega
    · rw [he] at hab; omega
  · -- a < C ≤ b : wrap at the storage boundary
    have hr : ranges C a b = ((a, C), (0, b - C)) := by
      simp [ranges, div_cases2 ha, div_cases2 hb, h1, Nat.not_lt.mpr h2,
        Nat.mod_eq_of_lt h1, mod_cases2 hb]
    rcases occ_char' (M := 2*C) ha hb with ⟨hle, he⟩ | ⟨hlt, he⟩
    · rw [hr, he, Nat.mod_eq_of_lt h1]
      dsimp only
      refine ⟨rfl, rfl, ?_, ?_⟩ <;> omega
    · omega
  · -- C ≤ a, b < C : the index range wraps through the modulus
    have hr : ranges C a b = ((a - C, C), (0, b)) := by
      simp [ranges, div_cases2 ha, div_cases2 hb, h2, Nat.not_lt.mpr h1,
        Nat.mod_eq_of_lt h2, mod_cases2 ha]
    rcases occ_char' (M := 2*C) ha hb with ⟨hle, he⟩ | ⟨hlt, he⟩
    · omega
    · rw [hr, he, mod_cases2 ha, if_neg (Nat.not_lt.mpr h1)]
      dsimp only
      refine ⟨rfl, rfl, ?_, ?_⟩ <;> omega
  · -- C ≤ a, C ≤ b : same (upper) lap
    have hr : ranges C a b = ((a - C, b - C), (0, 0)) := by
      simp [ranges, div_cases2 ha, div_cases2 hb, Nat.not_lt.mpr h1,
        Nat.not_lt.mpr h2, mod_cases2 ha, mod_cases2 hb]
    rcases occ_char' (M := 2*C) ha hb with ⟨hle, he⟩ | ⟨hlt, he⟩
    · rw [hr, he, mod_cases2 ha, if_neg (Nat.not_lt.mpr h1)]
      dsimp only
      refine ⟨rfl, rfl, ?_, ?_⟩ <;> omega
    · rw [he] at hab; omega

/-- The two slices produced by `ranges C a b`, concatenated, are exactly the
slots of the range `[a, b)` of the index space, in order. -/
theorem ranges_cover (data : List (Option α)) (C a b : Nat) (_hC : 0 < C)
    (ha : a < 2*C) (hb : b < 2*C) (hab : (2*C + b - a) % (2*C) ≤ C) :
    sliceOf data (ranges C a b).1 ++ sliceOf data (ranges C a b).2
      = (List.range ((2*C + b - a) % (2*C))).map
          fun i => data.getD ((a + i) % C) none := by
  rcases lt_or_ge a C with h1 | h1 <;> rcases lt_or_ge b C with h2 | h2
  · -- a < C, b < C : one contiguous slice
    have hr : ranges C a b = ((a, b), (0, 0)) := by
      simp [ranges, div_cases2 ha, div_cases2 hb, h1, h2,
        Nat.mod_eq_of_lt h1, Nat.mod_eq_of_lt h2]
    rcases occ_char' (M := 2*C) ha hb with ⟨hle, he⟩ | ⟨hlt, he⟩
    · rw [hr, he]
      simp only [sliceOf, Nat.sub_self, List.range_zero, List.map_nil,
        List.append_nil]
      refine map_range_congr rfl fun j hj => ?_
      rw [Nat.mod_eq_of_lt (show a + j < C by omega)]
    · rw [he] at hab; omega
  · -- a < C ≤ b : two slices split at the storage boundary
    have hr : ranges C a b = ((a, C), (0, b - C)) := by
      simp [ranges, div_cases2 ha, div_cases2 hb, h1, Nat.not_lt.mpr h2,
        Nat.mod_eq_of_lt h1, mod_cases2 hb]
    rcases occ_char' (M := 2*C) ha hb with ⟨hle, he⟩ | ⟨hlt, he⟩
    · rw [hr, he]
      simp only [sliceOf]
      rw [show b - a = (C - a) + (b - C) by omega, map_range_append]
      congr 1
      · refine map_range_congr rfl fun j hj => ?_
        rw [Nat.mod_eq_of_lt (show a + j < C by omega)]
      · refine map_range_congr (by omega) fun j hj => ?_
        rw [show a + ((C - a) + j) = C + j by omega, Nat.add_mod_left,
          Nat.mod_eq_of_lt (show j < C by omega), Nat.zero_add]
    · omega
  · -- C ≤ a, b < C : two slices, range wraps through the modulus
    have hr : ranges C a b = ((a - C, C), (0, b)) := by
      simp [ranges, div_cases2 ha, div_cases2 hb, h2, Nat.not_lt.mpr h1,
        Nat.mod_eq_of_lt h2, mod_cases2 ha]
    rcases occ_char' (M := 2*C) ha hb with ⟨hle, he⟩ | ⟨hlt, he⟩
    · omega
    · rw [hr, he]
      simp only [sliceOf]
      rw [show C - (a - C) = 2*C - a by omega,
        show 2*C + b - a = (2*C - a) + b by omega, map_range_append]
      congr 1
      · refine map_range_congr rfl fun j hj => ?_
        rw [mod_cases2 (show a + j < 2*C by omega),
          if_neg (Nat.not_lt.mpr (show C ≤ a + j by omega)),
          show a + j - C = (a - C) + j by omega]
      · refine map_range_congr (by omega) fun j hj => ?_
        rw [show a + ((2*C - a) + j) = j + C * 2 by omega,
          Nat.add_mul_mod_self_left,
          Nat.mod_eq_of_lt (show j < C by omega), Nat.zero_add]
  · -- C ≤ a, C ≤ b : one contiguous slice in the upper lap
    have hr : ranges C a b = ((a - C, b - C), (0, 0)) := by
      simp [ranges, div_cases2 ha, div_cases2 hb, Nat.not_lt.mpr h1,
        Nat.not_lt.mpr h2, mod_cases2 ha, mod_cases2 hb]
    rcases occ_char' (M := 2*C) ha hb with ⟨hle, he⟩ | ⟨hlt, he⟩
    · rw [hr, he]
      simp only [sliceOf, Nat.sub_self, List.range_zero, List.map_nil,
        List.append_nil]
      refine map_range_congr (by omega) fun j hj => ?_
      rw [mod_cases2 (show a + j < 2*C by omega),
        if_neg (Nat.not_lt.mpr (show C ≤ a + j by omega)),
        show a + j - C = (a - C) + j by omega]
    · rw [he] at hab; omega

end Ringbuf

namespace Ringbuf

/-- Dropping the front of a `List.range`. -/
theorem range_drop (n k : Nat) (hk : k ≤ n) :
    (List.range n).drop k = (List.range (n - k)).map (k + ·) := by
  have h1 : List.range n = List.range k ++ (List.range (n - k)).map (k + ·) := by
    rw [← List.range_add]
    congr 1
    omega
  rw [h1, List.drop_left' (List.length_range k)]

namespace SharedRb

/-- `queueOpt`, with the storage access spelled out. -/
theorem queueOpt_eq (rb : SharedRb α) :
    rb.queueOpt = (List.range rb.occupied_len).map
      fun i => rb.data.getD ((rb.read + i) % rb.data.length) none := rfl

/-- The occupied region has `occupied_len` slots. -/
theorem queueOpt_length (rb : SharedRb α) :
    rb.queueOpt.length = rb.occupied_len := by
  simp [queueOpt]

/-- The two occupied slices, concatenated, are exactly the occupied region. -/
theorem occupied_slices_append (rb : SharedRb α) (h : rb.Valid) :
    rb.occupied_slices.1 ++ rb.occupied_slices.2 = rb.queueOpt := by
  obtain ⟨hC, hr, hw, hocc⟩ := h
  exact ranges_cover rb.data rb.capacity rb.read rb.write hC hr hw hocc

/-- Shape of the two occupied slices: lengths, and the first element. -/
theorem occupied_shape (rb : SharedRb α) (h : rb.Valid) :
    rb.occupied_slices.1.length
        = min rb.occupied_len (rb.capacity - rb.read % rb.capacity) ∧
    rb.occupied_slices.2.length
        = rb.occupied_len - (rb.capacity - rb.read % rb.capacity) ∧
    (0 < rb.occupied_len →
      rb.occupied_slices.1.getD 0 none = rb.slot rb.read) := by
  obtain ⟨hC, hr, hw, hocc⟩ := h
  obtain ⟨h11, h21, hlen1, hlen2⟩ :=
    ranges_spec rb.capacity rb.read rb.write hC hr hw hocc
  have hocc_eq : (2 * rb.capacity + rb.write - rb.read) % (2 * rb.capacity)
      = rb.occupied_len := rfl
  rw [hocc_eq] at hlen1 hlen2
  have hmod : rb.read % rb.capacity < rb.capacity := Nat.mod_lt _ hC
  refine ⟨?_, ?_, ?_⟩
  · show (sliceOf rb.data (ranges rb.capacity rb.read rb.write).1).length = _
    rw [sliceOf_length]
    exact hlen1
  · show (sliceOf rb.data (ranges rb.capacity rb.read rb.write).2).length = _
    rw [sliceOf_length]
    exact hlen2
  · intro hpos
    have hL : 0 < (ranges rb.capacity rb.read rb.write).1.2
        - (ranges rb.capacity rb.read rb.write).1.1 := by
      rw [hlen1]
      omega
    show (sliceOf rb.data (ranges rb.capacity rb.read rb.write).1).getD 0 none = _
    unfold sliceOf
    rw [map_range_getD _ _ _ hL, h11, Nat.add_zero]
    rfl

/-- Under the invariant, `is_empty` is false exactly when the buffer holds
at least one item. -/
theorem is_empty_iff_pos (rb : SharedRb α) (h : rb.Valid) :
    rb.is_empty = false ↔ 0 < rb.occupied_len := by
  obtain ⟨hC, hr, hw, _⟩ := h
  have hoc :
      (rb.read ≤ rb.write ∧ rb.occupied_len = rb.write - rb.read) ∨
      (rb.write < rb.read ∧
        rb.occupied_len = rb.modulus + rb.write - rb.read) :=
    occ_char' hr hw
  simp only [is_empty, beq_eq_false_iff_ne, ne_eq]
  rcases hoc with ⟨hle, he⟩ | ⟨hlt, he⟩ <;> rw [he] <;> omega

/-- `advance_read_index k` under the invariant, for `k` at most the occupied
length: the occupied length shrinks by `k`, the occupied region loses its
first `k` slots, and the invariant is preserved. -/
theorem advance_read_spec (rb : SharedRb α) (k : Nat) (h : rb.Valid)
    (hk : k ≤ rb.occupied_len) :
    (rb.advance_read_index k).occupied_len = rb.occupied_len - k ∧
    (rb.advance_read_index k).queueOpt = rb.queueOpt.drop k ∧
    (rb.advance_read_index k).Valid := by
  obtain ⟨hC, hr, hw, hocc⟩ := h
  have hM2 : rb.modulus = 2 * rb.capacity := rfl
  have hM : 0 < rb.modulus := by omega
  have hoc :
      (rb.read ≤ rb.write ∧ rb.occupied_len = rb.write - rb.read) ∨
      (rb.write < rb.read ∧
        rb.occupied_len = rb.modulus + rb.write - rb.read) :=
    occ_char' hr hw
  have hxa : rb.read + k < 2 * rb.modulus := by omega
  have hrk := mod_cases2' (M := rb.modulus) hxa
  have hr2 : (rb.read + k) % rb.modulus < rb.modulus := Nat.mod_lt _ hM
  have hoc' :
      ((rb.read + k) % rb.modulus ≤ rb.write ∧
        (rb.advance_read_index k).occupied_len
          = rb.write - (rb.read + k) % rb.modulus) ∨
      (rb.write < (rb.read + k) % rb.modulus ∧
        (rb.advance_read_index k).occupied_len
          = rb.modulus + rb.write - (rb.read + k) % rb.modulus) :=
    occ_char' hr2 hw
  have hocc1 : (rb.advance_read_index k).occupied_len = rb.occupied_len - k := by
    rcases hoc with ⟨h3, h4⟩ | ⟨h3, h4⟩ <;> rcases hrk with ⟨h5, h6⟩ | ⟨h5, h6⟩ <;>
      rcases hoc' with ⟨h7, h8⟩ | ⟨h7, h8⟩ <;> omega
  refine ⟨hocc1, ?_, ?_⟩
  · show (List.range ((rb.advance_read_index k).occupied_len)).map
        (fun i => rb.data.getD
          (((rb.read + k) % rb.modulus + i) % rb.data.length) none)
      = ((List.range rb.occupied_len).map
          (fun i => rb.data.getD ((rb.read + i) % rb.data.length) none)).drop k
    rw [hocc1, (List.map_drop _ _ _).symm, range_drop _ _ hk, List.map_map]
    refine map_range_congr rfl fun j hj => ?_
    show rb.data.getD (((rb.read + k) % rb.modulus + j) % rb.data.length) none
      = rb.data.getD ((rb.read + (k + j)) % rb.data.length) none
    have hlen : rb.data.length = rb.capacity := rfl
    rcases hrk with ⟨h5, h6⟩ | ⟨h5, h6⟩
    · rw [h6, Nat.add_assoc]
    · rw [h6, hlen,
        show rb.read + k - rb.modulus + j
          = (rb.read + (k + j)) - 2 * rb.capacity by omega,
        mod_sub_two_mul (by omega)]
  · have hcap' : (rb.advance_read_index k).capacity = rb.capacity := rfl
    exact ⟨hC, hr2, hw, by omega⟩

end SharedRb

end Ringbuf

namespace Ringbuf

/-- The write index is congruent to `read + occupied_len` modulo the capacity. -/
theorem write_mod_eq {C M r w : Nat} (hM : M = 2 * C) (hr : r < M) (hw : w < M) :
    w % C = (r + (M + w - r) % M) % C := by
  rcases occ_char' hr hw with ⟨hle, he⟩ | ⟨hlt, he⟩
  · rw [he, show r + (w - r) = w by omega]
  · rw [he, show r + (M + w - r) = w + C * 2 by omega, Nat.add_mul_mod_self_left]

/-- Offsets of distinct positions within a window shorter than the capacity
are distinct. -/
theorem index_mod_ne {C i occ : Nat} (r : Nat) (hiocc : i < occ) (hocc : occ < C) :
    (r + i) % C ≠ (r + occ) % C := by
  intro hEq
  have h2 : i % C = occ % C := Nat.ModEq.add_left_cancel' r hEq
  rw [Nat.mod_eq_of_lt (by omega), Nat.mod_eq_of_lt hocc] at h2
  omega

namespace SharedRb

/-- `try_push` on a non-full buffer under the invariant: the item is accepted,
appended at the back of the occupied region, the occupied length grows by one
and the invariant is preserved. -/
theorem try_push_spec (rb : SharedRb α) (x : α) (h : rb.Valid)
    (hf : rb.is_full = false) :
    (rb.try_push x).2 = none ∧
    (rb.try_push x).1.occupied_len = rb.occupied_len + 1 ∧
    (rb.try_push x).1.queueOpt = rb.queueOpt ++ [some x] ∧
    (rb.try_push x).1.Valid := by
  obtain ⟨hC, hr, hw, hocc⟩ := h
  have hM2 : rb.modulus = 2 * rb.capacity := rfl
  have hM : 0 < rb.modulus := by omega
  have hne : rb.occupied_len ≠ rb.capacity := by
    simpa [SharedRb.is_full] using hf
  have hlt : rb.occupied_len < rb.capacity := by omega
  have hpush : rb.try_push x
      = ({ rb with
            data := rb.data.set (rb.write % rb.capacity) (some x),
            write := (rb.write + 1) % rb.modulus }, none) := by
    simp [SharedRb.try_push, hf]
  rw [hpush]
  have hlen : (rb.data.set (rb.write % rb.capacity) (some x)).length
      = rb.data.length := List.length_set rb.data _ _
  have hlen2 : rb.data.length = rb.capacity := rfl
  have hoc :
      (rb.read ≤ rb.write ∧ rb.occupied_len = rb.write - rb.read) ∨
      (rb.write < rb.read ∧
        rb.occupied_len = rb.modulus + rb.write - rb.read) :=
    occ_char' hr hw
  have hw1 : rb.write + 1 < 2 * rb.modulus := by omega
  have hwk := mod_cases2' (M := rb.modulus) hw1
  have hw2 : (rb.write + 1) % rb.modulus < rb.modulus := Nat.mod_lt _ hM
  have hoc' :
      (rb.read ≤ (rb.write + 1) % rb.modulus ∧
        (rb.modulus + (rb.write + 1) % rb.modulus - rb.read) % rb.modulus
          = (rb.write + 1) % rb.modulus - rb.read) ∨
      ((rb.write + 1) % rb.modulus < rb.read ∧
        (rb.modulus + (rb.write + 1) % rb.modulus - rb.read) % rb.modulus
          = rb.modulus + (rb.write + 1) % rb.modulus - rb.read) :=
    occ_char' hr hw2
  have hoccL : ({ rb with
        data := rb.data.set (rb.write % rb.capacity) (some x),
        write := (rb.write + 1) % rb.modulus } : SharedRb α).occupied_len
      = (rb.modulus + (rb.write + 1) % rb.modulus - rb.read) % rb.modulus := by
    show (2 * (rb.data.set (rb.write % rb.capacity) (some x)).length
          + (rb.write + 1) % rb.modulus - rb.read)
        % (2 * (rb.data.set (rb.write % rb.capacity) (some x)).length) = _
    rw [hlen]
    rfl
  have hocc1 : ({ rb with
        data := rb.data.set (rb.write % rb.capacity) (some x),
        write := (rb.write + 1) % rb.modulus } : SharedRb α).occupied_len
      = rb.occupied_len + 1 := by
    rw [hoccL]
    rcases hoc with ⟨h3, h4⟩ | ⟨h3, h4⟩ <;> rcases hwk with ⟨h5, h6⟩ | ⟨h5, h6⟩ <;>
      rcases hoc' with ⟨h7, h8⟩ | ⟨h7, h8⟩ <;> omega
  have hwmod : rb.write % rb.capacity = (rb.read + rb.occupied_len) % rb.capacity :=
    write_mod_eq hM2 hr hw
  refine ⟨rfl, hocc1, ?_, ?_⟩
  · show (List.range (({ rb with
          data := rb.data.set (rb.write % rb.capacity) (some x),
          write := (rb.write + 1) % rb.modulus } : SharedRb α).occupied_len)).map
        (fun i => (rb.data.set (rb.write % rb.capacity) (some x)).getD
          ((rb.read + i)
            % (rb.data.set (rb.write % rb.capacity) (some x)).length) none)
      = ((List.range rb.occupied_len).map
          (fun i => rb.data.getD ((rb.read + i) % rb.data.length) none)) ++ [some x]
    rw [hocc1, map_range_append]
    congr 1
    · refine map_range_congr rfl fun j hj => ?_
      rw [hlen, hlen2]
      have hne2 : rb.write % rb.capacity ≠ (rb.read + j) % rb.capacity := by
        rw [hwmod]
        exact (index_mod_ne rb.read hj hlt).symm
      rw [List.getD_eq_getElem?_getD, List.getElem?_set_ne hne2,
        ← List.getD_eq_getElem?_getD]
    · show [(rb.data.set (rb.write % rb.capacity) (some x)).getD
          ((rb.read + (rb.occupied_len + 0))
            % (rb.data.set (rb.write % rb.capacity) (some x)).length) none]
        = [some x]
      rw [hlen, hlen2, Nat.add_zero, ← hwmod]
      have hwlt : rb.write % rb.capacity < rb.data.length := Nat.mod_lt _ hC
      rw [List.getD_eq_getElem?_getD, List.getElem?_set_self hwlt]
      rfl
  · refine ⟨?_, ?_, ?_, ?_⟩
    · show 0 < (rb.data.set (rb.write % rb.capacity) (some x)).length
      omega
    · show rb.read < 2 * (rb.data.set (rb.write % rb.capacity) (some x)).length
      omega
    · show (rb.write + 1) % rb.modulus
          < 2 * (rb.data.set (rb.write % rb.capacity) (some x)).length
      omega
    · show ({ rb with
            data := rb.data.set (rb.write % rb.capacity) (some x),
            write := (rb.write + 1) % rb.modulus } : SharedRb α).occupied_len
          ≤ (rb.data.set (rb.write % rb.capacity) (some x)).length
      rw [hocc1]
      omega

/-- `try_pop` on a buffer whose occupied region holds `y :: q`: it returns
`y`, advances the read index by one, and leaves `q` as the occupied region. -/
theorem try_pop_spec [Inhabited α] (rb : SharedRb α) {y : α} {q : List α}
    (h : rb.Valid) (hq : rb.queueOpt = (y :: q).map some) :
    rb.try_pop = (rb.advance_read_index 1, some y) ∧
    (rb.advance_read_index 1).Valid ∧
    (rb.advance_read_index 1).queueOpt = q.map some := by
  have hpos : 0 < rb.occupied_len := by
    have h1 : rb.queueOpt.length = rb.occupied_len := queueOpt_length rb
    rw [hq] at h1
    simp at h1
    omega
  have hemp : rb.is_empty = false := (is_empty_iff_pos rb h).mpr hpos
  have hhead : rb.occupied_slices.1.getD 0 none = rb.slot rb.read :=
    (occupied_shape rb h).2.2 hpos
  have hslot : rb.slot rb.read = some y := by
    have h2 : rb.queueOpt.getD 0 none = rb.slot rb.read := by
      rw [queueOpt_eq, map_range_getD _ _ _ hpos]
      show rb.data.getD ((rb.read + 0) % rb.data.length) none = rb.slot rb.read
      rw [Nat.add_zero]
      rfl
    rw [hq] at h2
    simpa using h2.symm
  have hpop : rb.try_pop = (rb.advance_read_index 1, some y) := by
    unfold try_pop
    rw [hemp]
    simp only [Bool.not_false, if_true]
    rw [hhead, hslot]
    rfl
  have hadv := advance_read_spec rb 1 h hpos
  refine ⟨hpop, hadv.2.2, ?_⟩
  rw [hadv.2.1, hq]
  rfl

end SharedRb

end Ringbuf

namespace Ringbuf

/-! ### The FIFO invariant is preserved by every operation -/

/-- One operation preserves the FIFO invariant. -/
theorem inv_stepOp [Inhabited α] (s : SharedRb α × List α × List α) (op : Op α)
    (h : Inv s) : Inv (stepOp s op) := by
  obtain ⟨hv, q, hq, hpp⟩ := h
  cases op with
  | push x =>
    by_cases hf : s.1.is_full
    · have hstep : stepOp s (Op.push x) = (s.1, s.2.1, s.2.2) := by
        simp [stepOp, SharedRb.try_push, hf]
      rw [hstep]
      exact ⟨hv, q, hq, hpp⟩
    · have hf' : s.1.is_full = false := by simpa using hf
      obtain ⟨hnone, hocc1, hqueue, hvalid⟩ := SharedRb.try_push_spec s.1 x hv hf'
      rcases hpv : s.1.try_push x with ⟨rb1, o⟩
      rw [hpv] at hnone hqueue hvalid
      have ho : o = none := hnone
      subst ho
      have hstep : stepOp s (Op.push x) = (rb1, s.2.1 ++ [x], s.2.2) := by
        simp [stepOp, hpv]
      rw [hstep]
      refine ⟨hvalid, q ++ [x], ?_, ?_⟩
      · show rb1.queueOpt = (q ++ [x]).map some
        rw [show rb1.queueOpt = s.1.queueOpt ++ [some x] from hqueue, hq,
          List.map_append]
        rfl
      · show s.2.1 ++ [x] = s.2.2 ++ (q ++ [x])
        rw [hpp, List.append_assoc]
  | pop =>
    cases q with
    | nil =>
      have hocc0 : s.1.occupied_len = 0 := by
        have h1 := SharedRb.queueOpt_length s.1
        rw [hq] at h1
        simpa using h1.symm
      have hemp : s.1.is_empty = true := by
        cases hB : s.1.is_empty with
        | false =>
          have := (SharedRb.is_empty_iff_pos s.1 hv).mp hB
          omega
        | true => rfl
      have hstep : stepOp s Op.pop = (s.1, s.2.1, s.2.2) := by
        simp [stepOp, SharedRb.try_pop, hemp]
      rw [hstep]
      exact ⟨hv, [], hq, hpp⟩
    | cons y q2 =>
      obtain ⟨hpop, hvalid, hqueue⟩ := SharedRb.try_pop_spec s.1 hv hq
      have hstep : stepOp s Op.pop
          = (s.1.advance_read_index 1, s.2.1, s.2.2 ++ [y]) := by
        simp [stepOp, hpop]
      rw [hstep]
      refine ⟨hvalid, q2, hqueue, ?_⟩
      show s.2.1 = (s.2.2 ++ [y]) ++ q2
      rw [hpp, List.append_assoc]
      rfl

/-- Any run of operations preserves the FIFO invariant. -/
theorem inv_runOps [Inhabited α] (ops : List (Op α))
    (s : SharedRb α × List α × List α) (h : Inv s) : Inv (runOps s ops) := by
  induction ops generalizing s with
  | nil => exact h
  | cons op rest ih => exact ih _ (inv_stepOp s op h)

end Ringbuf

namespace Ringbuf

namespace PopIter

/-- Behaviour of `k` iterator steps, for `k` at most the remaining length and
under the iterator invariant (an empty first slice means an empty second
slice): the yielded items are the first `k` slots, the remaining slots are the
rest, and `initial_len` never changes. -/
theorem nextk_spec [Inhabited α] (k : Nat) (it : PopIter α)
    (hinv : it.first = [] → it.second = []) (hk : k ≤ it.len) :
    (nextk k it).1
        = ((it.first ++ it.second).take k).map (fun a => a.getD default) ∧
    (nextk k it).2.first ++ (nextk k it).2.second
        = (it.first ++ it.second).drop k ∧
    (nextk k it).2.initial_len = it.initial_len ∧
    ((nextk k it).2.first = [] → (nextk k it).2.second = []) := by
  induction k generalizing it with
  | zero => exact ⟨rfl, rfl, rfl, hinv⟩
  | succ k ih =>
    cases hft : it.first with
    | nil =>
      exfalso
      have h2 := hinv hft
      have h3 : it.len = 0 := by simp [len, hft, h2]
      omega
    | cons a rest =>
      cases rest with
      | nil =>
        have hit1 : it.next
            = (some (a.getD default),
              { it with first := it.second, second := [] }) := by
          unfold next
          rw [hft]
          rfl
        have hstep : nextk (k+1) it
            = ((a.getD default)
                :: (nextk k { it with first := it.second, second := [] }).1,
              (nextk k { it with first := it.second, second := [] }).2) := by
          simp [nextk, hit1]
        have hlen1 : it.len = 1 + it.second.length := by
          simp [len, hft]
        obtain ⟨ih1, ih2, ih3, ih4⟩ :=
          ih { it with first := it.second, second := [] }
            (fun _ => rfl) (by simp [len]; omega)
        rw [hstep]
        dsimp only at ih1 ih2 ih3 ⊢
        simp only [List.append_nil] at ih1 ih2
        refine ⟨?_, ?_, ih3, ih4⟩
        · simp [ih1]
        · simp [ih2]
      | cons b rest2 =>
        have hit1 : it.next
            = (some (a.getD default), { it with first := b :: rest2 }) := by
          unfold next
          rw [hft]
          rfl
        have hstep : nextk (k+1) it
            = ((a.getD default) :: (nextk k { it with first := b :: rest2 }).1,
              (nextk k { it with first := b :: rest2 }).2) := by
          simp [nextk, hit1]
        have hlen1 : it.len = 1 + (b :: rest2).length + it.second.length := by
          simp [len, hft]
          omega
        obtain ⟨ih1, ih2, ih3, ih4⟩ :=
          ih { it with first := b :: rest2 }
            (by intro hcon; exact absurd hcon (List.cons_ne_nil b rest2))
            (by simp [len]; simp [len, hft] at hk; omega)
        rw [hstep]
        dsimp only at ih1 ih2 ih3 ⊢
        refine ⟨?_, ?_, ih3, ih4⟩
        · simp [ih1]
        · simp [ih2]

end PopIter

end Ringbuf

namespace Ringbuf

/-! ### Claims decided by the `SharedRb` draft (C3, C4, C6, C7, C10) -/

/-- C3: for every sequence of push and pop operations on a buffer of capacity
`cap > 0`, the ordered list of items popped is a prefix of the ordered list of
items pushed: pushed = popped ++ q where `q` is exactly the occupied region
still in the buffer (so `try_pop` always returned the oldest occupied item). -/
theorem c3_fifo_order [Inhabited α] (cap : Nat) (hcap : 0 < cap)
    (ops : List (Op α)) :
    ∃ q : List α,
      (runOps (SharedRb.new cap, [], []) ops).1.queueOpt = q.map some ∧
      (runOps (SharedRb.new cap, [], []) ops).2.1
        = (runOps (SharedRb.new cap, [], []) ops).2.2 ++ q := by
  have hlenrep : (List.replicate cap (none : Option α)).length = cap :=
    List.length_replicate cap none
  have hocc0 : (SharedRb.new cap : SharedRb α).occupied_len = 0 := by
    show ((SharedRb.new cap : SharedRb α).modulus + 0 - 0)
        % (SharedRb.new cap : SharedRb α).modulus = 0
    simp
  have h0 : Inv ((SharedRb.new cap : SharedRb α), [], []) := by
    refine ⟨⟨?_, ?_, ?_, ?_⟩, [], ?_, rfl⟩
    · show 0 < (List.replicate cap (none : Option α)).length
      omega
    · show 0 < (SharedRb.new cap : SharedRb α).modulus
      show 0 < 2 * (List.replicate cap (none : Option α)).length
      omega
    · show 0 < 2 * (List.replicate cap (none : Option α)).length
      omega
    · rw [hocc0]
      exact Nat.zero_le _
    · show (SharedRb.new cap : SharedRb α).queueOpt = ([] : List α).map some
      rw [SharedRb.queueOpt_eq, hocc0]
      rfl
  exact (inv_runOps ops _ h0).2

/-- Witness for `c3_fifo_order` at capacity 2 with the run
push 5, push 6, pop. -/
theorem c3_fifo_order_witness :
    0 < 2 ∧
    ∃ q : List Nat,
      (runOps (SharedRb.new 2, [], []) [Op.push 5, Op.push 6, Op.pop]).1.queueOpt
          = q.map some ∧
      (runOps (SharedRb.new 2, [], []) [Op.push 5, Op.push 6, Op.pop]).2.1
        = (runOps (SharedRb.new 2, [], []) [Op.push 5, Op.push 6, Op.pop]).2.2
            ++ q :=
  ⟨by decide, c3_fifo_order 2 (by decide) [Op.push 5, Op.push 6, Op.pop]⟩

/-- C4: `try_push` on a full buffer returns the item back unchanged and
leaves the state unchanged; `try_pop` on an empty buffer returns nothing and
leaves the state unchanged (both return, neither panics). -/
theorem c4_reject_without_change [Inhabited α] (rbf rbe : SharedRb α) (x : α)
    (hf : rbf.is_full = true) (he : rbe.is_empty = true) :
    rbf.try_push x = (rbf, some x) ∧ rbe.try_pop = (rbe, none) := by
  constructor
  · simp [SharedRb.try_push, hf]
  · simp [SharedRb.try_pop, he]

/-- Witness for `c4_reject_without_change` on a full and an empty
capacity-1 buffer. -/
theorem c4_reject_without_change_witness :
    fullRb.is_full = true ∧ emptyRb.is_empty = true ∧
    (fullRb.try_push 7 = (fullRb, some 7) ∧ emptyRb.try_pop = (emptyRb, none)) :=
  ⟨by decide, by decide,
    c4_reject_without_change fullRb emptyRb 7 (by decide) (by decide)⟩

/-- C7: `skip(n)` returns exactly `min n occupied_len` and removes that many
items; `clear()` returns `occupied_len`, leaves the buffer with
`occupied_len = 0`, and a second `clear()` returns 0. -/
theorem c7_skip_min_clear_idem (rb : SharedRb α) (n : Nat) (h : rb.Valid) :
    (rb.skip n).1 = min n rb.occupied_len ∧
    (rb.skip n).2.occupied_len = rb.occupied_len - min n rb.occupied_len ∧
    rb.clear.1 = rb.occupied_len ∧
    rb.clear.2.occupied_len = 0 ∧
    rb.clear.2.clear.1 = 0 := by
  have hmin : min n rb.occupied_len ≤ rb.occupied_len := Nat.min_le_right _ _
  have hadv1 := SharedRb.advance_read_spec rb (min n rb.occupied_len) h hmin
  have hadv2 := SharedRb.advance_read_spec rb rb.occupied_len h le_rfl
  have hclear2 : rb.clear.2.occupied_len = 0 := by
    show (rb.advance_read_index
        (min rb.occupied_len rb.occupied_len)).occupied_len = 0
    rw [min_self, hadv2.1]
    omega
  refine ⟨rfl, ?_, ?_, hclear2, ?_⟩
  · show (rb.advance_read_index
        (min (min n rb.occupied_len) rb.occupied_len)).occupied_len = _
    rw [min_eq_left hmin]
    exact hadv1.1
  · show min rb.occupied_len rb.occupied_len = rb.occupied_len
    exact min_self _
  · show min rb.clear.2.occupied_len rb.clear.2.occupied_len = 0
    rw [min_self]
    exact hclear2

/-- Witness for `c7_skip_min_clear_idem` on a capacity-3 buffer holding two
items, with `n = 5`. -/
theorem c7_skip_min_clear_idem_witness :
    rb7w.Valid ∧
    ((rb7w.skip 5).1 = min 5 rb7w.occupied_len ∧
     (rb7w.skip 5).2.occupied_len = rb7w.occupied_len - min 5 rb7w.occupied_len ∧
     rb7w.clear.1 = rb7w.occupied_len ∧
     rb7w.clear.2.occupied_len = 0 ∧
     rb7w.clear.2.clear.1 = 0) :=
  ⟨by decide, c7_skip_min_clear_idem rb7w 5 (by decide)⟩

/-- C10: for every valid buffer state, if the buffer holds at least one item
then the first occupied slice is non-empty; the second occupied slice is
non-empty only if the first is; and whenever `is_empty` is false the index 0
read by `try_pop` on the first occupied slice is within bounds. -/
theorem c10_first_slice_nonempty (rb : SharedRb α) (h : rb.Valid) :
    (0 < rb.occupied_len → rb.occupied_slices.1 ≠ []) ∧
    (rb.occupied_slices.2 ≠ [] → rb.occupied_slices.1 ≠ []) ∧
    (rb.is_empty = false → 0 < rb.occupied_slices.1.length) := by
  obtain ⟨hs1, hs2, _⟩ := SharedRb.occupied_shape rb h
  have hmodlt : rb.read % rb.capacity < rb.capacity := Nat.mod_lt _ h.1
  have key : 0 < rb.occupied_len → 0 < rb.occupied_slices.1.length := by
    intro hpos
    rw [hs1]
    omega
  refine ⟨?_, ?_, ?_⟩
  · intro hpos
    exact List.length_pos.mp (key hpos)
  · intro h2
    have hl2 : 0 < rb.occupied_slices.2.length := List.length_pos.mpr h2
    rw [hs2] at hl2
    have hpos : 0 < rb.occupied_len := by omega
    exact List.length_pos.mp (key hpos)
  · intro hemp
    exact key ((SharedRb.is_empty_iff_pos rb h).mp hemp)

/-- Witness for `c10_first_slice_nonempty` on a capacity-2 buffer holding
one item. -/
theorem c10_first_slice_nonempty_witness :
    rb10w.Valid ∧
    ((0 < rb10w.occupied_len → rb10w.occupied_slices.1 ≠ []) ∧
     (rb10w.occupied_slices.2 ≠ [] → rb10w.occupied_slices.1 ≠ []) ∧
     (rb10w.is_empty = false → 0 < rb10w.occupied_slices.1.length)) :=
  ⟨by decide, c10_first_slice_nonempty rb10w (by decide)⟩

end Ringbuf

namespace Ringbuf

/-- C6: the pop-iterator over a valid buffer whose occupied region holds the
items `q` is created with `initial_len` equal to the occupied length; taking
`k ≤ q.length` items yields exactly the oldest `k` items in order (and a full
run yields all of `q`); dropping the iterator afterwards advances the read
index by exactly `k`; and the items not taken remain in the buffer, still in
FIFO order. -/
theorem c6_pop_iter_exact [Inhabited α] (rb : SharedRb α) (q : List α) (k : Nat)
    (h : rb.Valid) (hq : rb.queueOpt = q.map some) (hk : k ≤ q.length) :
    (PopIter.new rb).initial_len = rb.occupied_len ∧
    (PopIter.nextk k (PopIter.new rb)).1 = q.take k ∧
    (PopIter.nextk q.length (PopIter.new rb)).1 = q ∧
    PopIter.dropAdvance rb (PopIter.nextk k (PopIter.new rb)).2
      = rb.advance_read_index k ∧
    (PopIter.dropAdvance rb (PopIter.nextk k (PopIter.new rb)).2).queueOpt
      = (q.drop k).map some := by
  have happ : (PopIter.new rb).first ++ (PopIter.new rb).second = q.map some := by
    show rb.occupied_slices.1 ++ rb.occupied_slices.2 = _
    rw [SharedRb.occupied_slices_append rb h, hq]
  obtain ⟨hs1, hs2, _⟩ := SharedRb.occupied_shape rb h
  have hmodlt : rb.read % rb.capacity < rb.capacity := Nat.mod_lt _ h.1
  have hinv : (PopIter.new rb).first = [] → (PopIter.new rb).second = [] := by
    intro h1
    have h1' : rb.occupied_slices.1 = [] := h1
    have h1l : rb.occupied_slices.1.length = 0 := by rw [h1']; rfl
    rw [hs1] at h1l
    have h2l : rb.occupied_slices.2.length = 0 := by rw [hs2]; omega
    show rb.occupied_slices.2 = []
    exact List.length_eq_zero.mp h2l
  have hlen : (PopIter.new rb).len = q.length := by
    show (PopIter.new rb).first.length + (PopIter.new rb).second.length = _
    rw [← List.length_append, happ, List.length_map]
  have hinit : (PopIter.new rb).initial_len = q.length := hlen
  have hoccq : rb.occupied_len = q.length := by
    have h2 := SharedRb.queueOpt_length rb
    rw [hq] at h2
    simpa using h2.symm
  obtain ⟨hn1, hn2, hn3, _⟩ :=
    PopIter.nextk_spec k (PopIter.new rb) hinv (by rw [hlen]; exact hk)
  obtain ⟨hm1, _, _, _⟩ :=
    PopIter.nextk_spec q.length (PopIter.new rb) hinv (le_of_eq hlen.symm)
  have hlen2 : (PopIter.nextk k (PopIter.new rb)).2.len = q.length - k := by
    show ((PopIter.nextk k (PopIter.new rb)).2.first).length
        + ((PopIter.nextk k (PopIter.new rb)).2.second).length = _
    rw [← List.length_append, hn2, happ, List.length_drop, List.length_map]
  have hcount : (PopIter.nextk k (PopIter.new rb)).2.initial_len
      - (PopIter.nextk k (PopIter.new rb)).2.len = k := by
    rw [hn3, hinit, hlen2]
    omega
  have hdrop : PopIter.dropAdvance rb (PopIter.nextk k (PopIter.new rb)).2
      = rb.advance_read_index k := by
    unfold PopIter.dropAdvance
    rw [hcount]
  have hkocc : k ≤ rb.occupied_len := by omega
  have hadv := SharedRb.advance_read_spec rb k h hkocc
  have hcomp : ((fun a : Option α => a.getD default) ∘ some) = (id : α → α) := by
    funext y
    rfl
  refine ⟨by rw [hinit, hoccq], ?_, ?_, hdrop, ?_⟩
  · rw [hn1, happ, ← List.map_take, List.map_map, hcomp, List.map_id]
  · rw [hm1, happ, ← List.map_take, List.map_map, List.take_length, hcomp,
      List.map_id]
  · rw [hdrop, hadv.2.1, hq, ← List.map_drop]

end Ringbuf

namespace Ringbuf

/-- Witness for `c6_pop_iter_exact` on a capacity-3 buffer holding `[10, 20]`,
taking one item. -/
theorem c6_pop_iter_exact_witness :
    rb6w.Valid ∧ rb6w.queueOpt = ([10, 20] : List Nat).map some ∧
    1 ≤ ([10, 20] : List Nat).length ∧
    ((PopIter.new rb6w).initial_len = rb6w.occupied_len ∧
     (PopIter.nextk 1 (PopIter.new rb6w)).1 = ([10, 20] : List Nat).take 1 ∧
     (PopIter.nextk ([10, 20] : List Nat).length (PopIter.new rb6w)).1
        = [10, 20] ∧
     PopIter.dropAdvance rb6w (PopIter.nextk 1 (PopIter.new rb6w)).2
        = rb6w.advance_read_index 1 ∧
     (PopIter.dropAdvance rb6w (PopIter.nextk 1 (PopIter.new rb6w)).2).queueOpt
        = (([10, 20] : List Nat).drop 1).map some) :=
  ⟨by decide, by decide, by decide,
    c6_pop_iter_exact rb6w [10, 20] 1 (by decide) (by decide) (by decide)⟩

end Ringbuf
